import Mathlib

set_option maxHeartbeats 1000000

/- Verification development for JsonFormatterApp.py (a PySide6 JSON
formatter).  The embedding covers: the JSON value model produced by
Python json.loads, the display-tree projection JsonFormatterWindow.populate_tree,
the heuristic reconstruction item_to_json inside on_tree_item_clicked,
the nested-string expansion pass parse_nested inside process_json, the
search panel (SearchPanel.do_search, goto, next_match, prev_match) over
a Qt text document, and the window-level actions process_json,
auto_format_input, format_json, compress_json. -/

/-- Text (Python str, Qt document text) modelled as a list of characters. -/
abbrev Str := List Char

/-- JSON values as produced by Python json.loads: objects keep insertion
order (Python dicts are insertion ordered); numbers are modelled as exact
rationals (CPython parses to int/float; none of the claims under study
depends on float rounding). -/
inductive JValue where
  | null : JValue
  | bool (b : Bool) : JValue
  | num (q : Rat) : JValue
  | str (s : Str) : JValue
  | arr (elems : List JValue) : JValue
  | obj (entries : List (Str × JValue)) : JValue

mutual
/-- Decidable equality of JSON values (the derive handler does not support
this nested inductive). -/
def decEqJ : (a b : JValue) → Decidable (a = b)
  | .null, .null => .isTrue rfl
  | .bool a, .bool b =>
    if h : a = b then .isTrue (by rw [h]) else .isFalse (fun hh => by cases hh; exact h rfl)
  | .num a, .num b =>
    if h : a = b then .isTrue (by rw [h]) else .isFalse (fun hh => by cases hh; exact h rfl)
  | .str a, .str b =>
    if h : a = b then .isTrue (by rw [h]) else .isFalse (fun hh => by cases hh; exact h rfl)
  | .arr xs, .arr ys =>
    match decEqJList xs ys with
    | .isTrue h => .isTrue (by rw [h])
    | .isFalse h => .isFalse (fun hh => by cases hh; exact h rfl)
  | .obj xs, .obj ys =>
    match decEqJEntries xs ys with
    | .isTrue h => .isTrue (by rw [h])
    | .isFalse h => .isFalse (fun hh => by cases hh; exact h rfl)
  | .null, .bool _ | .null, .num _ | .null, .str _ | .null, .arr _ | .null, .obj _
  | .bool _, .null | .bool _, .num _ | .bool _, .str _ | .bool _, .arr _ | .bool _, .obj _
  | .num _, .null | .num _, .bool _ | .num _, .str _ | .num _, .arr _ | .num _, .obj _
  | .str _, .null | .str _, .bool _ | .str _, .num _ | .str _, .arr _ | .str _, .obj _
  | .arr _, .null | .arr _, .bool _ | .arr _, .num _ | .arr _, .str _ | .arr _, .obj _
  | .obj _, .null | .obj _, .bool _ | .obj _, .num _ | .obj _, .str _ | .obj _, .arr _ =>
    .isFalse (fun h => nomatch h)

def decEqJList : (a b : List JValue) → Decidable (a = b)
  | [], [] => .isTrue rfl
  | [], _ :: _ => .isFalse (fun h => nomatch h)
  | _ :: _, [] => .isFalse (fun h => nomatch h)
  | x :: xs, y :: ys =>
    match decEqJ x y with
    | .isFalse h1 => .isFalse (fun hh => by cases hh; exact h1 rfl)
    | .isTrue h1 =>
      match decEqJList xs ys with
      | .isTrue h2 => .isTrue (by rw [h1, h2])
      | .isFalse h2 => .isFalse (fun hh => by cases hh; exact h2 rfl)

def decEqJEntries : (a b : List (Str × JValue)) → Decidable (a = b)
  | [], [] => .isTrue rfl
  | [], _ :: _ => .isFalse (fun h => nomatch h)
  | _ :: _, [] => .isFalse (fun h => nomatch h)
  | (k1, v1) :: xs, (k2, v2) :: ys =>
    if hk : k1 = k2 then
      match decEqJ v1 v2 with
      | .isFalse h1 => .isFalse (fun hh => by cases hh; exact h1 rfl)
      | .isTrue h1 =>
        match decEqJEntries xs ys with
        | .isTrue h2 => .isTrue (by rw [hk, h1, h2])
        | .isFalse h2 => .isFalse (fun hh => by cases hh; exact h2 rfl)
    else .isFalse (fun hh => by cases hh; exact hk rfl)
end

instance : DecidableEq JValue := decEqJ

/-- Python str() on the scalar data that populate_tree interpolates into a
leaf label; containers never reach this call (they take the dict/list
branches first).  CPython float repr is approximated by the integer string
when the rational is integral; no claim depends on the text after the
colon of a leaf label. -/
def pystr : JValue → Str
  | .null => "None".toList
  | .bool true => "True".toList
  | .bool false => "False".toList
  | .num q => if q.den = 1 then (toString q.num).toList else (toString q).toList
  | .str s => s
  | .arr _ => []
  | .obj _ => []

/-- UserRole payload stored on a tree item: scalar leaves store the
(key_name, data) tuple, dict/list items store the full data. -/
inductive Payload where
  | pair (key : Option Str) (v : JValue) : Payload
  | whole (v : JValue) : Payload
deriving DecidableEq

/-- A QTreeWidgetItem as built by populate_tree: its column-0 text, its
UserRole payload and its ordered children. -/
inductive TNode where
  | mk (label : Str) (payload : Payload) (children : List TNode) : TNode

mutual
/-- Decidable equality of tree items (manual, nested inductive). -/
def decEqT : (a b : TNode) → Decidable (a = b)
  | .mk l1 p1 c1, .mk l2 p2 c2 =>
    if hl : l1 = l2 then
      if hp : p1 = p2 then
        match decEqTList c1 c2 with
        | .isTrue hc => .isTrue (by rw [hl, hp, hc])
        | .isFalse hc => .isFalse (fun hh => by cases hh; exact hc rfl)
      else .isFalse (fun hh => by cases hh; exact hp rfl)
    else .isFalse (fun hh => by cases hh; exact hl rfl)

def decEqTList : (a b : List TNode) → Decidable (a = b)
  | [], [] => .isTrue rfl
  | [], _ :: _ => .isFalse (fun h => nomatch h)
  | _ :: _, [] => .isFalse (fun h => nomatch h)
  | x :: xs, y :: ys =>
    match decEqT x y with
    | .isFalse h1 => .isFalse (fun hh => by cases hh; exact h1 rfl)
    | .isTrue h1 =>
      match decEqTList xs ys with
      | .isTrue h2 => .isTrue (by rw [h1, h2])
      | .isFalse h2 => .isFalse (fun hh => by cases hh; exact h2 rfl)
end

instance : DecidableEq TNode := decEqT

def TNode.label : TNode → Str
  | .mk l _ _ => l

def TNode.payload : TNode → Payload
  | .mk _ p _ => p

def TNode.children : TNode → List TNode
  | .mk _ _ cs => cs

/-- populate_tree's container label: `[key_name] if key_name else ""` —
the key text, or the empty string when key_name is falsy (absent, or the
empty-string key). -/
def labelFromKey : Option Str → Str
  | some k => if k = [] then [] else k
  | none => []

/-- The label given to the i-th child of a list: the literal text "[i]". -/
def bracketLabel (i : Nat) : Str :=
  '[' :: (toString i).toList ++ [']']

/-- populate_tree's scalar label: `f"{key_name}: {data}" if key_name else
str(data)` (key_name is falsy when absent or the empty string). -/
def scalarLabel (key : Option Str) (v : JValue) : Str :=
  match key with
  | some k => if k = [] then pystr v else k ++ ": ".toList ++ pystr v
  | none => pystr v

mutual
/-- JsonFormatterWindow.populate_tree: projects a JSON value to the
QTreeWidget item tree.  Dict and list items carry one child per entry /
element (keys in order, elements labelled "[i]"), store the whole value
as payload and scalar leaves store the (key_name, data) pair. -/
def populateTree (key : Option Str) : JValue → TNode
  | .obj kvs => .mk (labelFromKey key) (.whole (.obj kvs)) (projObj kvs)
  | .arr xs => .mk (labelFromKey key) (.whole (.arr xs)) (projArr 0 xs)
  | v => .mk (scalarLabel key v) (.pair key v) []

/-- Children of a dict item, one per entry in insertion order. -/
def projObj : List (Str × JValue) → List TNode
  | [] => []
  | (k, v) :: rest => populateTree (some k) v :: projObj rest

/-- Children of a list item, labelled "[i]" from index i upwards. -/
def projArr (i : Nat) : List JValue → List TNode
  | [] => []
  | v :: rest => populateTree (some (bracketLabel i)) v :: projArr (i + 1) rest
end

/-- `text.startswith('[')`. -/
def startsBracket : Str → Bool
  | [] => false
  | c :: _ => decide (c = '[')

/-- Python dict assignment `result[key] = value`: updates the value in
place if the key exists (keeping its position), else appends. -/
def dictInsert (acc : List (Str × JValue)) (k : Str) (v : JValue) : List (Str × JValue) :=
  if acc.any (fun kv => decide (kv.1 = k)) then
    acc.map (fun kv => if kv.1 = k then (k, v) else kv)
  else acc ++ [(k, v)]

/-- Python's `":" in s`. -/
def hasColon : Str → Bool
  | [] => false
  | c :: rest => decide (c = ':') || hasColon rest

/-- Keep while not a colon (the predicate cut by split(":", 1)). -/
def notColon (c : Char) : Bool := decide (c ≠ ':')

/-- `child.text(0).split(":", 1)[0] if ":" in child.text(0) else
child.text(0)`: the text before the first colon, or the whole label. -/
def derivedKey (lbl : Str) : Str :=
  if hasColon lbl then lbl.takeWhile notColon else lbl

/-- The object-branch unwrap of item_to_json: if the child value is a
single-entry dict whose sole key equals the derived key, take its value. -/
def unwrapSameKey (key : Str) (v : JValue) : JValue :=
  match v with
  | .obj [(k, w)] => if k = key then w else .obj [(k, w)]
  | v => v

mutual
/-- item_to_json (inside on_tree_item_clicked): heuristic reconstruction
of a JSON value from a tree item.  A leaf returns its payload ({key: value}
when the stored key is truthy); a non-leaf is a list iff every child label
starts with "[", else a dict assembled from per-child derived keys. -/
def itemToJson : TNode → JValue
  | .mk _ p [] =>
    match p with
    | .pair (some k) v => if k = [] then v else .obj [(k, v)]
    | .pair none v => v
    | .whole v => v
  | .mk _ _ (c :: cs) =>
    if (c :: cs).all (fun ch => startsBracket ch.label) then
      .arr (itemList (c :: cs))
    else
      .obj ((objEntries (c :: cs)).foldl (fun acc kv => dictInsert acc kv.1 kv.2) [])

/-- item_to_json mapped over a list of children. -/
def itemList : List TNode → List JValue
  | [] => []
  | t :: ts => itemToJson t :: itemList ts

/-- The object branch of item_to_json, per child in order: the derived
key paired with the (unwrapped) reconstructed child value. -/
def objEntries : List TNode → List (Str × JValue)
  | [] => []
  | t :: ts =>
    (derivedKey t.label, unwrapSameKey (derivedKey t.label) (itemToJson t)) :: objEntries ts
end

/-- Scalars: everything json.loads can produce except dict and list. -/
def isScalar : JValue → Bool
  | .null | .bool _ | .num _ | .str _ => true
  | .arr _ | .obj _ => false

/-- No two entries share a key (always true of a value parsed by
json.loads, since Python dicts deduplicate). -/
def nodupKeysB : List (Str × JValue) → Bool
  | [] => true
  | (k, _) :: rest => !(rest.any (fun kv => decide (kv.1 = k))) && nodupKeysB rest

/-- Is v a single-entry object whose sole key is k? -/
def isSingletonSameKey (k : Str) : JValue → Bool
  | .obj [(k2, _)] => decide (k2 = k)
  | _ => false

mutual
/-- The class of values on which the projection/reconstruction roundtrip
is exact: object keys are nonempty, unique, do not start with "[" and
contain no ":"; no object entry k maps to a single-entry object whose
sole key is again k; and no array element is a scalar. -/
def good : JValue → Bool
  | .obj kvs => nodupKeysB kvs && goodObj kvs
  | .arr xs => goodArr xs
  | _ => true

def goodObj : List (Str × JValue) → Bool
  | [] => true
  | (k, v) :: rest =>
    decide (k ≠ []) && !startsBracket k && !hasColon k &&
    !isSingletonSameKey k v && good v && goodObj rest

def goodArr : List JValue → Bool
  | [] => true
  | v :: rest => !isScalar v && good v && goodArr rest
end

-- sanity checks of the embedding on concrete values
example : itemToJson (populateTree none (.obj [("a".toList, .num 1)])) =
    .obj [("a".toList, .num 1)] := by decide

example : itemToJson (populateTree none (.arr [.num 1])) =
    .arr [.obj [("[0]".toList, .num 1)]] := by decide

/-! ### The Python json.loads model

parse_nested and process_json call the standard-library json.loads.  The
model below follows CPython's json.decoder (py_scanstring, JSONObject,
JSONArray, the NUMBER_RE regex and JSONDecoder.decode), with these
documented approximations: numbers are exact rationals instead of
int/float, the non-standard NaN and signed Infinity constants are not
modelled, and a lone \uXXXX surrogate (unrepresentable as a Lean Char)
decodes to NUL.  None of the claims under study depends on these. -/

/-- A parse failure: CPython's message together with the unconsumed
suffix at the failure point (the offset is recovered from its length). -/
structure PErr where
  msg : String
  rem : Str
deriving DecidableEq

/-- json.decoder.JSONDecodeError's user-visible fields. -/
structure JsonError where
  msg : String
  lineno : Nat
  colno : Nat
deriving DecidableEq

/-- JSON whitespace per CPython's WHITESPACE regex: space, tab, newline,
carriage return. -/
def jsonWs (c : Char) : Bool :=
  decide (c = ' ') || decide (c = '\t') || decide (c = '\n') || decide (c = '\r')

def skipWs (cs : Str) : Str := cs.dropWhile jsonWs

def isDigitCh (c : Char) : Bool := decide ('0' ≤ c) && decide (c ≤ '9')

def natOfDigits (ds : Str) : Nat :=
  ds.foldl (fun n c => n * 10 + (c.toNat - 48)) 0

def hexVal (c : Char) : Option Nat :=
  if isDigitCh c then some (c.toNat - 48)
  else if decide ('a' ≤ c) && decide (c ≤ 'f') then some (c.toNat - 87)
  else if decide ('A' ≤ c) && decide (c ≤ 'F') then some (c.toNat - 55)
  else none

/-- Four hex digits of a \uXXXX escape. -/
def hex4 : Str → Option (Nat × Str)
  | c1 :: c2 :: c3 :: c4 :: rest =>
    match hexVal c1, hexVal c2, hexVal c3, hexVal c4 with
    | some a, some b, some c, some d => some (((a * 16 + b) * 16 + c) * 16 + d, rest)
    | _, _, _, _ => none
  | _ => none

/-- Value of the single-character escapes accepted by py_scanstring. -/
def escChar : Char → Option Char
  | '"' => some '"'
  | '\\' => some '\\'
  | '/' => some '/'
  | 'b' => some (Char.ofNat 8)
  | 'f' => some (Char.ofNat 12)
  | 'n' => some '\n'
  | 'r' => some '\r'
  | 't' => some '\t'
  | _ => none

/-- py_scanstring (the C scanner) after the opening quote: accumulates
characters (acc is reversed), decodes escapes, combines \uXXXX surrogate
pairs, rejects raw control characters, and fails on an unterminated
string; start is the suffix at the opening quote, where the unterminated
error is anchored. -/
def parseStringRest : Nat → Str → Str → Str → Except PErr (Str × Str)
  | 0, _, start, _ => .error ⟨"Unterminated string starting at", start⟩
  | fuel + 1, cs, start, acc =>
    match cs with
    | [] => .error ⟨"Unterminated string starting at", start⟩
    | '"' :: rest => .ok (acc.reverse, rest)
    | '\\' :: rest =>
      match rest with
      | [] => .error ⟨"Unterminated string starting at", start⟩
      | 'u' :: r2 =>
        match hex4 r2 with
        | none => .error ⟨"Invalid \\uXXXX escape", 'u' :: r2⟩
        | some (code, r3) =>
          if 0xD800 ≤ code && code ≤ 0xDBFF then
            match r3 with
            | '\\' :: 'u' :: r4 =>
              match hex4 r4 with
              | some (lo, r5) =>
                if 0xDC00 ≤ lo && lo ≤ 0xDFFF then
                  parseStringRest fuel r5 start
                    (Char.ofNat (0x10000 + ((code - 0xD800) * 0x400) + (lo - 0xDC00)) :: acc)
                else parseStringRest fuel r3 start (Char.ofNat code :: acc)
              | none => parseStringRest fuel r3 start (Char.ofNat code :: acc)
            | _ => parseStringRest fuel r3 start (Char.ofNat code :: acc)
          else parseStringRest fuel r3 start (Char.ofNat code :: acc)
      | e :: r2 =>
        match escChar e with
        | some c => parseStringRest fuel r2 start (c :: acc)
        | none => .error ⟨"Invalid \\escape", '\\' :: rest⟩
    | c :: rest =>
      if c.toNat < 0x20 then .error ⟨"Invalid control character at", cs⟩
      else parseStringRest fuel rest start (c :: acc)

/-- The NUMBER_RE regex of json.scanner:
`(-?(?:0|[1-9]\d*))(\.\d+)?([eE][-+]?\d+)?`.  A non-match is the
scanner's "Expecting value".  The matched number is evaluated exactly. -/
def parseNumber (cs : Str) : Except PErr (JValue × Str) :=
  let sign : Bool := startsMinus cs
  let afterSign := if sign then cs.tail else cs
  match afterSign with
  | '0' :: r2 => .ok (numTail sign ['0'] r2)
  | c :: r2 =>
    if isDigitCh c && decide (c ≠ '0') then
      .ok (numTail sign (c :: r2.takeWhile isDigitCh) (r2.dropWhile isDigitCh))
    else .error ⟨"Expecting value", cs⟩
  | [] => .error ⟨"Expecting value", cs⟩
where
  startsMinus : Str → Bool
    | '-' :: _ => true
    | _ => false
  fracPart : Str → Str × Str
    | '.' :: r =>
      if (r.takeWhile isDigitCh) = [] then ([], '.' :: r)
      else (r.takeWhile isDigitCh, r.dropWhile isDigitCh)
    | r => ([], r)
  expDigits : Str → Str × Str
    | '+' :: r => (r.takeWhile isDigitCh, r.dropWhile isDigitCh)
    | r => (r.takeWhile isDigitCh, r.dropWhile isDigitCh)
  expPart : Str → Bool × Str × Str
    | 'e' :: r => expSigned r ('e' :: r)
    | 'E' :: r => expSigned r ('E' :: r)
    | r => (false, [], r)
  expSigned : Str → Str → Bool × Str × Str
    | '-' :: r, orig =>
      if (r.takeWhile isDigitCh) = [] then (false, [], orig)
      else (true, r.takeWhile isDigitCh, r.dropWhile isDigitCh)
    | r, orig =>
      match expDigits r with
      | ([], _) => (false, [], orig)
      | (ds, r2) => (false, ds, r2)
  numTail (sign : Bool) (intDigits : Str) (r : Str) : JValue × Str :=
    let (fracDigits, r2) := fracPart r
    let (eneg, eDigits, r3) := expPart r2
    let mant : Int := Int.ofNat (natOfDigits (intDigits ++ fracDigits))
    let mant : Int := if sign then -mant else mant
    let e : Nat := natOfDigits eDigits
    let q : Rat :=
      if eneg then mkRat mant (10 ^ fracDigits.length * 10 ^ e)
      else mkRat (mant * Int.ofNat (10 ^ e)) (10 ^ fracDigits.length)
    (.num q, r3)

/-- Python dict construction from a pair list: dict(pairs), later
duplicates overwrite in place. -/
def buildDict (pairs : List (Str × JValue)) : List (Str × JValue) :=
  pairs.foldl (fun acc kv => dictInsert acc kv.1 kv.2) []

mutual
/-- json.scanner scan_once: dispatch on the first character. -/
def parseValue : Nat → Str → Except PErr (JValue × Str)
  | 0, cs => .error ⟨"Expecting value", cs⟩
  | fuel + 1, cs =>
    match cs with
    | '"' :: rest =>
      match parseStringRest fuel rest ('"' :: rest) [] with
      | .ok (s, r) => .ok (.str s, r)
      | .error e => .error e
    | '{' :: rest =>
      let r1 := skipWs rest
      match r1 with
      | '}' :: r2 => .ok (.obj [], r2)
      | '"' :: r2 => parseMembers fuel r2 []
      | _ => .error ⟨"Expecting property name enclosed in double quotes", r1⟩
    | '[' :: rest =>
      let r1 := skipWs rest
      match r1 with
      | ']' :: r2 => .ok (.arr [], r2)
      | _ => parseElems fuel r1 []
    | 'n' :: 'u' :: 'l' :: 'l' :: rest => .ok (.null, rest)
    | 't' :: 'r' :: 'u' :: 'e' :: rest => .ok (.bool true, rest)
    | 'f' :: 'a' :: 'l' :: 's' :: 'e' :: rest => .ok (.bool false, rest)
    | _ => parseNumber cs

/-- json.decoder JSONObject member loop; cs points just after the opening
quote of the next key, acc holds the pairs read so far (reversed). -/
def parseMembers : Nat → Str → List (Str × JValue) → Except PErr (JValue × Str)
  | 0, cs, _ => .error ⟨"Expecting value", cs⟩
  | fuel + 1, cs, acc =>
    match parseStringRest fuel cs ('"' :: cs) [] with
    | .error e => .error e
    | .ok (k, r1) =>
      let r2 := skipWs r1
      match r2 with
      | ':' :: r3 =>
        match parseValue fuel (skipWs r3) with
        | .error e => .error e
        | .ok (v, r5) =>
          let acc := (k, v) :: acc
          let r6 := skipWs r5
          match r6 with
          | '}' :: r7 => .ok (.obj (buildDict acc.reverse), r7)
          | ',' :: r7 =>
            let r8 := skipWs r7
            match r8 with
            | '"' :: r9 => parseMembers fuel r9 acc
            | _ => .error ⟨"Expecting property name enclosed in double quotes", r8⟩
          | _ => .error ⟨"Expecting ',' delimiter", r6⟩
      | _ => .error ⟨"Expecting ':' delimiter", r2⟩

/-- json.decoder JSONArray element loop; cs points at the next element. -/
def parseElems : Nat → Str → List JValue → Except PErr (JValue × Str)
  | 0, cs, _ => .error ⟨"Expecting value", cs⟩
  | fuel + 1, cs, acc =>
    match parseValue fuel cs with
    | .error e => .error e
    | .ok (v, r1) =>
      let acc := v :: acc
      let r2 := skipWs r1
      match r2 with
      | ']' :: r3 => .ok (.arr acc.reverse, r3)
      | ',' :: r3 => parseElems fuel (skipWs r3) acc
      | _ => .error ⟨"Expecting ',' delimiter", r2⟩
end

/-- Offset of the failure point, and its 1-based line/column exactly as
JSONDecodeError computes them (colno = pos - doc.rfind('\n', 0, pos)). -/
def mkJsonError (doc : Str) (msg : String) (rem : Str) : JsonError :=
  let pos := doc.length - rem.length
  let consumed := doc.take pos
  let lineno := 1 + consumed.count '\n'
  let colno :=
    match consumed.reverse.findIdx? (fun c => decide (c = '\n')) with
    | some r => r + 1
    | none => pos + 1
  ⟨msg, lineno, colno⟩

/-- json.loads: skip leading whitespace, scan one value, skip trailing
whitespace, and require the input to be exhausted ("Extra data"). -/
def jsonLoads (doc : Str) : Except JsonError JValue :=
  match parseValue (2 * doc.length + 8) (skipWs doc) with
  | .error e => .error (mkJsonError doc e.msg e.rem)
  | .ok (v, rest) =>
    let rest2 := skipWs rest
    if rest2 = [] then .ok v
    else .error (mkJsonError doc "Extra data" rest2)

/-- Decidable equality of Except results (not provided by core). -/
def decEqExcept {ε α : Type} [DecidableEq ε] [DecidableEq α] :
    (a b : Except ε α) → Decidable (a = b)
  | .ok a, .ok b =>
    if h : a = b then .isTrue (by rw [h]) else .isFalse (fun hh => by cases hh; exact h rfl)
  | .error a, .error b =>
    if h : a = b then .isTrue (by rw [h]) else .isFalse (fun hh => by cases hh; exact h rfl)
  | .ok _, .error _ => .isFalse (fun h => nomatch h)
  | .error _, .ok _ => .isFalse (fun h => nomatch h)

instance {ε α : Type} [DecidableEq ε] [DecidableEq α] : DecidableEq (Except ε α) :=
  decEqExcept

/-- `json.loads(v)` on a string value, keeping the string on failure —
the body of parse_nested's `try: obj[k] = json.loads(v) except: pass`. -/
def loadOrKeep (s : Str) : JValue :=
  match jsonLoads s with
  | .ok w => w
  | .error _ => .str s

mutual
/-- parse_nested (inside process_json): walks dicts and lists; a string
member is re-parsed and replaced by the parsed value on success (the
replacement is inserted as-is, it is not walked again), kept on failure;
non-string members are walked recursively; non-container arguments are
returned unchanged. -/
def parseNested : JValue → JValue
  | .obj kvs => .obj (expandEntries kvs)
  | .arr xs => .arr (expandElems xs)
  | v => v

def expandEntries : List (Str × JValue) → List (Str × JValue)
  | [] => []
  | (k, .str s) :: rest => (k, loadOrKeep s) :: expandEntries rest
  | (k, v) :: rest => (k, parseNested v) :: expandEntries rest

def expandElems : List JValue → List JValue
  | [] => []
  | .str s :: rest => loadOrKeep s :: expandElems rest
  | v :: rest => parseNested v :: expandElems rest
end

mutual
/-- Modelled from the spec (§4.2 Expansion Pass), for comparison with
parse_nested: on a successful re-parse of a String leaf the pass replaces
the leaf "and continues recursing into the *replacement*".  Every
recursive call spends one unit of fuel so that the definition is
structural; claims use it only at concrete inputs with ample fuel. -/
def specMember : Nat → JValue → JValue
  | 0, v => v
  | fuel + 1, .str s =>
    match jsonLoads s with
    | .ok w => specMember fuel w
    | .error _ => .str s
  | fuel + 1, .obj kvs => .obj (specEntries fuel kvs)
  | fuel + 1, .arr xs => .arr (specElems fuel xs)
  | _ + 1, v => v

def specEntries : Nat → List (Str × JValue) → List (Str × JValue)
  | 0, kvs => kvs
  | _ + 1, [] => []
  | fuel + 1, (k, v) :: rest => (k, specMember fuel v) :: specEntries fuel rest

def specElems : Nat → List JValue → List JValue
  | 0, xs => xs
  | _ + 1, [] => []
  | fuel + 1, v :: rest => specMember fuel v :: specElems fuel rest
end

/-- Modelled from the spec: expand(value) visits Object and Array values
recursively; a non-container argument is untouched. -/
def specExpand (fuel : Nat) : JValue → JValue
  | .obj kvs => .obj (specEntries fuel kvs)
  | .arr xs => .arr (specElems fuel xs)
  | v => v

mutual
/-- No string member of any dict or list inside v re-parses as JSON —
the values on which a parse_nested pass finds nothing to replace. -/
def noParseable : JValue → Bool
  | .obj kvs => noParseableE kvs
  | .arr xs => noParseableL xs
  | _ => true

def noParseableE : List (Str × JValue) → Bool
  | [] => true
  | (_, .str s) :: rest => !(jsonLoads s).isOk && noParseableE rest
  | (_, v) :: rest => noParseable v && noParseableE rest

def noParseableL : List JValue → Bool
  | [] => true
  | .str s :: rest => !(jsonLoads s).isOk && noParseableL rest
  | v :: rest => noParseable v && noParseableL rest
end

-- parser sanity checks
example : jsonLoads ("\x7b\"a\": 1, \"b\": [true, null]\x7d".toList) =
    .ok (.obj [("a".toList, .num 1), ("b".toList, .arr [.bool true, .null])]) := by decide

example : jsonLoads ("\x7b\"a\":\x7d".toList) =
    .error ⟨"Expecting value", 1, 6⟩ := by decide

example : jsonLoads ("1".toList) = .ok (.num 1) := by decide

example : jsonLoads ("\"x\"".toList) = .ok (.str ("x".toList)) := by decide

example : jsonLoads ("".toList) = .error ⟨"Expecting value", 1, 1⟩ := by decide

/-! ### The search panel

SearchPanel.do_search / goto / next_match / prev_match, over the text of
a Qt document.  QTextDocument.find with default flags is a literal
search that is case-insensitive; the found cursor selects the match and
the next search resumes at its selection end; a needle cannot cross a
block (paragraph) boundary, so a pattern containing a newline never
matches; finding the empty string yields a null cursor. -/

/-- Qt's default (case-insensitive) character comparison, via simple case
folding. -/
def lowerEq (a b : Char) : Bool := a.toLower == b.toLower

/-- Does pat occur, case-insensitively, at the head of t? -/
def ciMatch : Str → Str → Bool
  | [], _ => true
  | _ :: _, [] => false
  | a :: ps, b :: ts => lowerEq a b && ciMatch ps ts

/-- First case-insensitive occurrence of pat in t at absolute offset ≥
pos, where t is the document suffix whose head sits at offset pos. -/
def scanFrom (pat : Str) : Str → Nat → Option Nat
  | [], _ => none
  | t@(_ :: rest), pos => if ciMatch pat t then some pos else scanFrom pat rest (pos + 1)

/-- QTextDocument.find(pat, cursor-at-start) with default flags. -/
def docFind (doc pat : Str) (start : Nat) : Option Nat :=
  if pat = [] || pat.contains '\n' then none
  else scanFrom pat (doc.drop start) start

/-- The do_search collection loop: repeatedly find, record the selection
start, resume at the selection end (start + pattern length). -/
def searchLoop (doc pat : Str) : Nat → Nat → List Nat
  | 0, _ => []
  | fuel + 1, start =>
    match docFind doc pat start with
    | none => []
    | some j => j :: searchLoop doc pat fuel (j + pat.length)

/-- All match start offsets recorded by do_search, in scan order. -/
def findAllMatches (doc pat : Str) : List Nat :=
  searchLoop doc pat (doc.length + 1) 0

/-- An RGBA color. -/
structure RGBA where
  r : Nat
  g : Nat
  b : Nat
  a : Nat
deriving DecidableEq

/-- QColor("#00FF00"), the all-match background. -/
def colGreen : RGBA := ⟨0, 255, 0, 255⟩

/-- QColor(204, 232, 255, 51), the translucent current-line background. -/
def colLightBlue : RGBA := ⟨204, 232, 255, 51⟩

/-- QColor("#FF0000"), the current-match background. -/
def colRed : RGBA := ⟨255, 0, 0, 255⟩

/-- QColor("#FFFFFF"), the current-match foreground. -/
def colWhite : RGBA := ⟨255, 255, 255, 255⟩

/-- A QTextCharFormat as used by the panel: optional background and
foreground colors, bold weight, and the FullWidthSelection property. -/
structure Fmt where
  bg : Option RGBA
  fg : Option RGBA
  bold : Bool
  fullWidth : Bool
deriving DecidableEq

/-- One ExtraSelection: the cursor selection [start, start + len) and its
format. -/
structure ExtraSel where
  start : Nat
  len : Nat
  fmt : Fmt
deriving DecidableEq

/-- A green all-match selection. -/
def mkGreenSel (j len : Nat) : ExtraSel := ⟨j, len, ⟨some colGreen, none, false, false⟩⟩

/-- The full-width current-line selection: an empty (zero-length)
selection parked at pos. -/
def mkLineSel (pos : Nat) : ExtraSel := ⟨pos, 0, ⟨some colLightBlue, none, false, true⟩⟩

/-- The red/white/bold current-match selection. -/
def mkCurrentSel (j len : Nat) : ExtraSel := ⟨j, len, ⟨some colRed, some colWhite, true, false⟩⟩

/-- SearchPanel state: the editor document text, the search field text,
the recorded match offsets, the current index, the editor's extra
selections and the "i / n" counter label. -/
structure SPanel where
  doc : Str
  pattern : Str
  matchList : List Nat
  index : Nat
  extras : List ExtraSel
  labelText : Str
deriving DecidableEq

/-- f"{i} / {n}". -/
def counterLabel (i n : Nat) : Str :=
  (toString i).toList ++ " / ".toList ++ (toString n).toList

/-- SearchPanel.update_label. -/
def updateLabel (p : SPanel) : SPanel :=
  if p.matchList = [] then { p with labelText := "0 / 0".toList }
  else { p with labelText := counterLabel (p.index + 1) p.matchList.length }

/-- SearchPanel.goto: set the current index, rebuild the extra-selection
list — the full-width current-line anchor first, then one green
selection per occurrence in document order, then the red current-match
selection last — and refresh the counter label.  Moving the editor's
text cursor and repainting are display effects outside the model; the
code indexes self.matches[idx] and is only ever called with idx below
len(matches), rendered here as getD with an irrelevant default. -/
def goto (p : SPanel) (idx : Nat) : SPanel :=
  if p.matchList = [] then p
  else
    let current := p.matchList.getD idx 0
    let greens := (findAllMatches p.doc p.pattern).map (fun j => mkGreenSel j p.pattern.length)
    { p with
      index := idx
      extras := mkLineSel current :: greens ++ [mkCurrentSel current p.pattern.length]
      labelText := counterLabel (idx + 1) p.matchList.length }

/-- SearchPanel.highlight_search as called from do_search (keyword only):
green selections on every occurrence; with an empty keyword the editor
falls back to its own current-line highlight, modelled as no selections. -/
def highlightSearch (p : SPanel) (kw : Str) : SPanel :=
  if kw = [] then { p with extras := [] }
  else { p with extras := (findAllMatches p.doc kw).map (fun j => mkGreenSel j kw.length) }

/-- SearchPanel.do_search: repaint the plain highlights, clear and
recompute the match list, reset the index, refresh the label, and jump
to the first match when there is one. -/
def doSearch (p : SPanel) (text : Str) : SPanel :=
  let p := { p with pattern := text }
  let p := highlightSearch p text
  let p := { p with matchList := [] }
  if text = [] then { p with labelText := "0 / 0".toList }
  else
    let p := { p with matchList := findAllMatches p.doc text }
    let p := { p with index := 0 }
    let p := updateLabel p
    if p.matchList = [] then p else goto p 0

/-- SearchPanel.next_match: no-op without matches, else go to
(index + 1) % len(matches). -/
def nextMatch (p : SPanel) : SPanel :=
  if p.matchList = [] then p else goto p ((p.index + 1) % p.matchList.length)

/-- SearchPanel.prev_match: no-op without matches, else go to Python's
(index - 1) % len(matches) (the remainder is nonnegative). -/
def prevMatch (p : SPanel) : SPanel :=
  if p.matchList = [] then p
  else goto p ((((p.index : Int) - 1) % (p.matchList.length : Int)).toNat)

/-- Modelled from the spec (§4.5): the non-overlapping left-to-right
greedy occurrence scan, parameterized by the character comparison (the
spec claims case-sensitive matching; Qt's default is case folding). -/
def greedyGo (eqc : Char → Char → Bool) (pat : Str) : Nat → Str → Nat → List Nat
  | 0, _, _ => []
  | _, [], _ => []
  | fuel + 1, t@(_ :: rest), pos =>
    if matchHere eqc pat t then
      pos :: greedyGo eqc pat fuel (t.drop pat.length) (pos + pat.length)
    else greedyGo eqc pat fuel rest (pos + 1)
where
  matchHere (eqc : Char → Char → Bool) : Str → Str → Bool
    | [], _ => true
    | _ :: _, [] => false
    | a :: ps, b :: ts => eqc a b && matchHere eqc ps ts

/-- Modelled from the spec: all greedy non-overlapping occurrences of pat
in doc (empty pattern: no matches). -/
def greedyMatches (eqc : Char → Char → Bool) (doc pat : Str) : List Nat :=
  if pat = [] then [] else greedyGo eqc pat (doc.length + 1) doc 0

/-! ### Serialization and the window actions -/

def hexDigitCh (n : Nat) : Char :=
  if n < 10 then Char.ofNat (48 + n) else Char.ofNat (87 + n)

/-- json.dumps character escaping with ensure_ascii=False: only the
quote, the backslash and control characters are escaped; everything else
(non-ASCII included) is emitted literally. -/
def escJsonChar (c : Char) : Str :=
  if c = '"' then ['\\', '"']
  else if c = '\\' then ['\\', '\\']
  else if c = '\n' then ['\\', 'n']
  else if c = '\t' then ['\\', 't']
  else if c = '\r' then ['\\', 'r']
  else if c.toNat = 8 then ['\\', 'b']
  else if c.toNat = 12 then ['\\', 'f']
  else if c.toNat < 0x20 then
    "\\u00".toList ++ [hexDigitCh (c.toNat / 16), hexDigitCh (c.toNat % 16)]
  else [c]

/-- A serialized JSON string literal. -/
def dumpStr (s : Str) : Str :=
  '"' :: (s.map escJsonChar).flatten ++ ['"']

/-- Python repr of a parsed number; integral rationals print as Python
ints do, the (claim-irrelevant) float repr is approximated by the
rational's own representation. -/
def numRepr (q : Rat) : Str :=
  if q.den = 1 then (toString q.num).toList else (toString q).toList

def indentOf (level : Nat) : Str := List.replicate (4 * level) ' '

mutual
/-- json.dumps(data, indent=4, ensure_ascii=False): one element or key
per line, four spaces of indent per depth, separators "," and ": ",
insertion order preserved. -/
def dumpsPretty (level : Nat) : JValue → Str
  | .null => "null".toList
  | .bool true => "true".toList
  | .bool false => "false".toList
  | .num q => numRepr q
  | .str s => dumpStr s
  | .arr [] => "[]".toList
  | .arr (x :: xs) =>
    '[' :: '\n' :: prettyElems (level + 1) (x :: xs) ++ '\n' :: indentOf level ++ [']']
  | .obj [] => "\x7b\x7d".toList
  | .obj (kv :: kvs) =>
    '\x7b' :: '\n' :: prettyEntries (level + 1) (kv :: kvs) ++ '\n' :: indentOf level ++ ['\x7d']

def prettyElems (level : Nat) : List JValue → Str
  | [] => []
  | [x] => indentOf level ++ dumpsPretty level x
  | x :: xs => indentOf level ++ dumpsPretty level x ++ ',' :: '\n' :: prettyElems level xs

def prettyEntries (level : Nat) : List (Str × JValue) → Str
  | [] => []
  | [(k, v)] => indentOf level ++ dumpStr k ++ ':' :: ' ' :: dumpsPretty level v
  | (k, v) :: kvs =>
    indentOf level ++ dumpStr k ++ ':' :: ' ' :: dumpsPretty level v ++
      ',' :: '\n' :: prettyEntries level kvs
end

mutual
/-- json.dumps(data, separators=(',', ':'), ensure_ascii=False): the
compact form with no insignificant whitespace. -/
def dumpsCompact : JValue → Str
  | .null => "null".toList
  | .bool true => "true".toList
  | .bool false => "false".toList
  | .num q => numRepr q
  | .str s => dumpStr s
  | .arr xs => '[' :: compactElems xs ++ [']']
  | .obj kvs => '\x7b' :: compactEntries kvs ++ ['\x7d']

def compactElems : List JValue → Str
  | [] => []
  | [x] => dumpsCompact x
  | x :: xs => dumpsCompact x ++ ',' :: compactElems xs

def compactEntries : List (Str × JValue) → Str
  | [] => []
  | [(k, v)] => dumpStr k ++ ':' :: dumpsCompact v
  | (k, v) :: kvs => dumpStr k ++ ':' :: dumpsCompact v ++ ',' :: compactEntries kvs
end

/-- Window display state: the input buffer text, the tree view's
top-level item (none when cleared) and the result view's text. -/
structure WState where
  inputText : Str
  tree : Option TNode
  output : Str
deriving DecidableEq

/-- A QMessageBox.critical dialog: title and body. -/
structure Dialog where
  title : Str
  body : Str
deriving DecidableEq

/-- f"{e.msg}\n行: {e.lineno}, 列: {e.colno}". -/
def errBody (e : JsonError) : Str :=
  e.msg.toList ++ "\n行: ".toList ++ (toString e.lineno).toList ++
    ", 列: ".toList ++ (toString e.colno).toList

/-- Python str.strip() whitespace (the ASCII set; the app strips JSON
text). -/
def pyStripWs (c : Char) : Bool :=
  jsonWs c || decide (c = '\x0b') || decide (c = '\x0c')

def pyStrip (s : Str) : Str :=
  ((s.dropWhile pyStripWs).reverse.dropWhile pyStripWs).reverse

/-- JsonFormatterWindow.process_json: empty text clears both views; a
parse success runs parse_nested, rebuilds the tree and pretty-prints
into the result view; a JSONDecodeError either pops the dialog (explicit
mode, state untouched) or clears both views silently (live mode).
Returns the new state and the dialog shown, if any. -/
def processJson (st : WState) (text : Str) (showErrorDialog : Bool) : WState × Option Dialog :=
  if text = [] then ({ st with tree := none, output := [] }, none)
  else
    match jsonLoads text with
    | .ok data =>
      let data := parseNested data
      ({ st with tree := some (populateTree none data), output := dumpsPretty 0 data }, none)
    | .error e =>
      if showErrorDialog then (st, some ⟨"格式化失败".toList, errBody e⟩)
      else ({ st with tree := none, output := [] }, none)

/-- JsonFormatterWindow.auto_format_input: live re-parse on every buffer
edit, never a dialog. -/
def autoFormatInput (st : WState) : WState × Option Dialog :=
  processJson st (pyStrip st.inputText) false

/-- JsonFormatterWindow.format_json: the explicit format button. -/
def formatJson (st : WState) : WState × Option Dialog :=
  processJson st (pyStrip st.inputText) true

/-- JsonFormatterWindow.compress_json: compacts the input (no expansion
pass), repopulating the tree from the re-parsed compact text; a
JSONDecodeError pops the dialog and leaves the views untouched. -/
def compressJson (st : WState) : WState × Option Dialog :=
  let text := pyStrip st.inputText
  if text = [] then (st, none)
  else
    match jsonLoads text with
    | .ok data =>
      let compressed := dumpsCompact data
      match jsonLoads compressed with
      | .ok d2 => ({ st with tree := some (populateTree none d2), output := compressed }, none)
      | .error e => (st, some ⟨"压缩失败".toList, errBody e⟩)
    | .error e => (st, some ⟨"压缩失败".toList, errBody e⟩)

/-! ### Helper lemmas: projection / reconstruction roundtrip -/

theorem startsBracket_append (k rest : Str) (hk : k ≠ []) :
    startsBracket (k ++ rest) = startsBracket k := by
  cases k with
  | nil => exact absurd rfl hk
  | cons c k' => simp [startsBracket]

theorem hasColon_append_colon (k rest : Str) :
    hasColon (k ++ ':' :: rest) = true := by
  induction k with
  | nil => simp [hasColon]
  | cons c k' ih => simp [hasColon, ih]

theorem takeWhile_append_colon (k rest : Str) (hk : hasColon k = false) :
    (k ++ ':' :: rest).takeWhile notColon = k := by
  induction k with
  | nil => simp [List.takeWhile, notColon]
  | cons c k' ih =>
    simp only [hasColon, Bool.or_eq_false_iff, decide_eq_false_iff_not] at hk
    have hc : notColon c = true := by simp [notColon, hk.1]
    simp [List.takeWhile, hc, ih hk.2]

theorem derivedKey_noColon (k : Str) (hc : hasColon k = false) : derivedKey k = k := by
  simp [derivedKey, hc]

theorem derivedKey_scalarLabel (k : Str) (v : JValue) (hk : k ≠ []) (hc : hasColon k = false) :
    derivedKey (scalarLabel (some k) v) = k := by
  have hcolon : ": ".toList = ':' :: ' ' :: [] := rfl
  simp only [scalarLabel, if_neg hk, hcolon]
  have hassoc : k ++ (':' :: ' ' :: []) ++ pystr v = k ++ ':' :: (' ' :: pystr v) := by
    simp
  rw [hassoc, derivedKey, hasColon_append_colon, if_pos rfl,
    takeWhile_append_colon _ _ hc]

theorem unwrapSameKey_singleton (k : Str) (v : JValue) :
    unwrapSameKey k (.obj [(k, v)]) = v := by
  simp [unwrapSameKey]

theorem unwrapSameKey_of_not_singleton (k : Str) (v : JValue)
    (h : isSingletonSameKey k v = false) : unwrapSameKey k v = v := by
  cases v with
  | obj entries =>
    match entries with
    | [] => rfl
    | [(k2, w)] =>
      simp only [isSingletonSameKey, decide_eq_false_iff_not] at h
      simp [unwrapSameKey, h]
    | (a :: b :: rest) => rfl
  | null => rfl
  | bool b => rfl
  | num q => rfl
  | str s => rfl
  | arr xs => rfl

theorem good_obj_parts (kvs : List (Str × JValue)) (h : good (.obj kvs) = true) :
    nodupKeysB kvs = true ∧ goodObj kvs = true := by
  simpa [good, Bool.and_eq_true] using h

theorem good_arr_parts (xs : List JValue) (h : good (.arr xs) = true) :
    goodArr xs = true := by
  simpa [good] using h

theorem goodObj_mem (kvs : List (Str × JValue)) (h : goodObj kvs = true) :
    ∀ k v, (k, v) ∈ kvs →
      k ≠ [] ∧ startsBracket k = false ∧ hasColon k = false ∧
      isSingletonSameKey k v = false ∧ good v = true := by
  induction kvs with
  | nil => intro k v hm; cases hm
  | cons kv rest ih =>
    obtain ⟨k0, v0⟩ := kv
    simp only [goodObj, Bool.and_eq_true, decide_eq_true_eq, Bool.not_eq_true',
      decide_eq_false_iff_not] at h
    intro k v hm
    obtain ⟨⟨⟨⟨⟨h1, h2⟩, h3⟩, h4⟩, h5⟩, h6⟩ := h
    rcases List.mem_cons.mp hm with heq | hmem
    · cases heq
      exact ⟨h1, h2, h3, h4, h5⟩
    · exact ih h6 k v hmem

theorem goodArr_mem (xs : List JValue) (h : goodArr xs = true) :
    ∀ v, v ∈ xs → isScalar v = false ∧ good v = true := by
  induction xs with
  | nil => intro v hm; cases hm
  | cons x rest ih =>
    simp only [goodArr, Bool.and_eq_true, Bool.not_eq_true'] at h
    intro v hm
    obtain ⟨⟨h1, h2⟩, h3⟩ := h
    rcases List.mem_cons.mp hm with rfl | hmem
    · exact ⟨h1, h2⟩
    · exact ih h3 v hmem

theorem populateTree_scalar (key : Option Str) (v : JValue) (h : isScalar v = true) :
    populateTree key v = .mk (scalarLabel key v) (.pair key v) [] := by
  cases v <;> first | rfl | simp [isScalar] at h

theorem populateTree_label_nonscalar (key : Option Str) (v : JValue) (h : isScalar v = false) :
    (populateTree key v).label = labelFromKey key := by
  cases v <;> first | (simp [populateTree, TNode.label]; done) | simp [isScalar] at h

theorem itemToJson_leaf_pair (l : Str) (k : Str) (v : JValue) (hk : k ≠ []) :
    itemToJson (.mk l (.pair (some k) v) []) = .obj [(k, v)] := by
  simp [itemToJson, hk]

theorem label_scalar_child (k : Str) (v : JValue) (hk : k ≠ []) (hs : isScalar v = true) :
    (populateTree (some k) v).label = k ++ ": ".toList ++ pystr v := by
  rw [populateTree_scalar _ _ hs]
  simp [TNode.label, scalarLabel, hk]

theorem dictInsert_fresh (acc : List (Str × JValue)) (k : Str) (v : JValue)
    (h : acc.any (fun kv => decide (kv.1 = k)) = false) :
    dictInsert acc k v = acc ++ [(k, v)] := by
  simp [dictInsert, h]

theorem foldl_dictInsert_fresh (kvs : List (Str × JValue)) :
    ∀ acc : List (Str × JValue),
      (∀ kv ∈ kvs, acc.any (fun e => decide (e.1 = kv.1)) = false) →
      nodupKeysB kvs = true →
      kvs.foldl (fun acc kv => dictInsert acc kv.1 kv.2) acc = acc ++ kvs := by
  induction kvs with
  | nil => intro acc _ _; simp
  | cons kv rest ih =>
    intro acc hdisj hnd
    obtain ⟨k, v⟩ := kv
    simp only [nodupKeysB, Bool.and_eq_true, Bool.not_eq_true'] at hnd
    obtain ⟨hfresh, hnd'⟩ := hnd
    have hacc : acc.any (fun e => decide (e.1 = k)) = false :=
      hdisj (k, v) (List.mem_cons_self _ _)
    rw [List.foldl_cons, dictInsert_fresh acc k v hacc]
    rw [ih (acc ++ [(k, v)]) ?_ hnd']
    · simp
    · intro kv2 hm2
      rw [List.any_append]
      have h1 : acc.any (fun e => decide (e.1 = kv2.1)) = false :=
        hdisj kv2 (List.mem_cons_of_mem _ hm2)
      have h2 : kv2.1 ≠ k := by
        intro hkk
        have : rest.any (fun e => decide (e.1 = k)) = true := by
          rw [List.any_eq_true]
          exact ⟨kv2, hm2, by simp [hkk]⟩
        rw [this] at hfresh; cases hfresh
      simp [h1, h2.symm, Ne.symm h2]

theorem buildDict_self (kvs : List (Str × JValue)) (h : nodupKeysB kvs = true) :
    buildDict kvs = kvs := by
  have := foldl_dictInsert_fresh kvs [] (by intro kv _; simp) h
  simpa [buildDict] using this

theorem projObj_labels (kvs : List (Str × JValue)) (h : goodObj kvs = true) :
    ∀ t ∈ projObj kvs, startsBracket t.label = false := by
  induction kvs with
  | nil => intro t hm; cases hm
  | cons kv rest ih =>
    obtain ⟨k, v⟩ := kv
    have hk := (goodObj_mem _ h k v (List.mem_cons_self _ _))
    obtain ⟨hne, hbr, _, _, _⟩ := hk
    have hrest : goodObj rest = true := by
      simp only [goodObj, Bool.and_eq_true] at h
      exact h.2
    intro t hm
    rcases List.mem_cons.mp (by simpa [projObj] using hm) with rfl | hmem
    · rcases hs : isScalar v with hv | hv
      · rw [populateTree_label_nonscalar _ _ hs]
        simpa [labelFromKey, hne] using hbr
      · rw [label_scalar_child k v hne hs]
        rw [List.append_assoc, startsBracket_append _ _ hne]
        exact hbr
    · exact ih hrest t hmem

theorem bracketLabel_ne_nil (i : Nat) : bracketLabel i ≠ [] := by
  simp [bracketLabel]

theorem startsBracket_bracketLabel (i : Nat) : startsBracket (bracketLabel i) = true := by
  simp [bracketLabel, startsBracket]

theorem projArr_labels (i : Nat) (xs : List JValue) :
    ∀ t ∈ projArr i xs, startsBracket t.label = true := by
  induction xs generalizing i with
  | nil => intro t hm; cases hm
  | cons x rest ih =>
    intro t hm
    rcases List.mem_cons.mp (by simpa [projArr] using hm) with rfl | hmem
    · rcases hs : isScalar x with hv | hv
      · rw [populateTree_label_nonscalar _ _ hs]
        simpa [labelFromKey, bracketLabel_ne_nil i] using startsBracket_bracketLabel i
      · rw [label_scalar_child _ x (bracketLabel_ne_nil i) hs]
        rw [List.append_assoc, startsBracket_append _ _ (bracketLabel_ne_nil i)]
        exact startsBracket_bracketLabel i
    · exact ih (i + 1) t hmem

theorem objEntries_projObj_eq (kvs : List (Str × JValue)) (hgood : goodObj kvs = true)
    (IH : ∀ k v, (k, v) ∈ kvs → isScalar v = false →
      itemToJson (populateTree (some k) v) = v) :
    objEntries (projObj kvs) = kvs := by
  induction kvs with
  | nil => rfl
  | cons kv rest ih =>
    obtain ⟨k, v⟩ := kv
    obtain ⟨hne, hbr, hcol, hsing, hgv⟩ := goodObj_mem _ hgood k v (List.mem_cons_self _ _)
    have hrest : goodObj rest = true := by
      simp only [goodObj, Bool.and_eq_true] at hgood
      exact hgood.2
    have tail_eq : objEntries (projObj rest) = rest :=
      ih hrest (fun k' v' hm hs => IH k' v' (List.mem_cons_of_mem _ hm) hs)
    rcases hs : isScalar v with hv | hv
    · -- non-scalar member: label is the key itself, value reconstructed by IH
      have hlbl : (populateTree (some k) v).label = k := by
        rw [populateTree_label_nonscalar _ _ hs]
        simp [labelFromKey, hne]
      simp only [projObj, objEntries, hlbl, tail_eq]
      rw [derivedKey_noColon k hcol, IH k v (List.mem_cons_self _ _) hs,
        unwrapSameKey_of_not_singleton k v hsing]
    · -- scalar member: leaf wraps to {k: v}, the derived key unwraps it
      have hleaf := populateTree_scalar (some k) v hs
      simp only [projObj, objEntries, hleaf, TNode.label, tail_eq]
      have hdk : derivedKey (scalarLabel (some k) v) = k := derivedKey_scalarLabel k v hne hcol
      rw [hdk, itemToJson_leaf_pair _ k v hne, unwrapSameKey_singleton]

theorem itemList_projArr_eq (xs : List JValue)
    (IH : ∀ v, v ∈ xs → ∀ key, itemToJson (populateTree key v) = v) :
    ∀ i, itemList (projArr i xs) = xs := by
  induction xs with
  | nil => intro i; rfl
  | cons x rest ih =>
    intro i
    simp only [projArr, itemList]
    rw [IH x (List.mem_cons_self _ _) _,
      ih (fun v hm key => IH v (List.mem_cons_of_mem _ hm) key) (i + 1)]

theorem sizeOf_mem_obj (kvs : List (Str × JValue)) (k : Str) (v : JValue)
    (hm : (k, v) ∈ kvs) : sizeOf v < sizeOf (JValue.obj kvs) := by
  have h1 := List.sizeOf_lt_of_mem hm
  have h2 : sizeOf (k, v) = 1 + sizeOf k + sizeOf v := rfl
  simp only [JValue.obj.sizeOf_spec]
  omega

theorem sizeOf_mem_arr (xs : List JValue) (v : JValue) (hm : v ∈ xs) :
    sizeOf v < sizeOf (JValue.arr xs) := by
  have h1 := List.sizeOf_lt_of_mem hm
  simp only [JValue.arr.sizeOf_spec]
  omega

theorem roundtrip_core : ∀ (n : Nat) (v : JValue), sizeOf v ≤ n → good v = true →
    isScalar v = false → ∀ key, itemToJson (populateTree key v) = v := by
  intro n
  induction n with
  | zero =>
    intro v hv _ _
    exfalso
    cases v <;> simp_arith at hv
  | succ n ih =>
    intro v hsize hgood hscal key
    cases v with
    | null => simp [isScalar] at hscal
    | bool b => simp [isScalar] at hscal
    | num q => simp [isScalar] at hscal
    | str s => simp [isScalar] at hscal
    | obj kvs =>
      obtain ⟨hnd, hobj⟩ := good_obj_parts kvs hgood
      have IH : ∀ k v, (k, v) ∈ kvs → isScalar v = false →
          itemToJson (populateTree (some k) v) = v := by
        intro k v hm hs
        have hsz : sizeOf v ≤ n := by
          have := sizeOf_mem_obj kvs k v hm
          omega
        exact ih v hsz (goodObj_mem _ hobj k v hm).2.2.2.2 hs (some k)
      cases kvs with
      | nil => simp [populateTree, projObj, itemToJson]
      | cons kv rest =>
        have hlabels := projObj_labels _ hobj
        have hEntries := objEntries_projObj_eq _ hobj
          (fun k v hm hs => IH k v hm hs)
        have hcons : projObj (kv :: rest) =
            populateTree (some kv.1) kv.2 :: projObj rest := by
          obtain ⟨k, v⟩ := kv; rfl
        have hall : (populateTree (some kv.1) kv.2 :: projObj rest).all
            (fun ch => startsBracket ch.label) = false := by
          have h0 : startsBracket (populateTree (some kv.1) kv.2).label = false := by
            apply hlabels
            rw [hcons]
            exact List.mem_cons_self _ _
          simp [List.all_cons, h0]
        simp only [populateTree, hcons, itemToJson, hall, Bool.false_eq_true, if_neg,
          ite_false]
        rw [← hcons, hEntries]
        exact congrArg JValue.obj (buildDict_self _ hnd)
    | arr xs =>
      have harr := good_arr_parts xs hgood
      have IH : ∀ v, v ∈ xs → ∀ key, itemToJson (populateTree key v) = v := by
        intro v hm key
        have hsz : sizeOf v ≤ n := by
          have := sizeOf_mem_arr xs v hm
          omega
        obtain ⟨hs, hg⟩ := goodArr_mem _ harr v hm
        exact ih v hsz hg hs key
      cases xs with
      | nil => simp [populateTree, projArr, itemToJson]
      | cons x rest =>
        have hcons : projArr 0 (x :: rest) =
            populateTree (some (bracketLabel 0)) x :: projArr 1 rest := rfl
        have hall : (populateTree (some (bracketLabel 0)) x :: projArr 1 rest).all
            (fun ch => startsBracket ch.label) = true := by
          rw [List.all_eq_true]
          intro t hm
          exact projArr_labels 0 (x :: rest) t (by rw [hcons]; exact hm)
        simp only [populateTree, hcons, itemToJson, hall, if_pos]
        rw [← hcons, itemList_projArr_eq _ IH 0]

/-! ### Claim C1 -/

/-- C1 counterexample: the claim "reconstruct(project(v)) == v whenever no
object key starts with a bracket, including for arrays of scalar
elements" fails exactly on arrays of scalar elements.  The value [1] has
no object keys at all, yet the leaf 1 is projected with key "[0]", the
leaf case of item_to_json wraps it back to the single-entry dict
with the bracket key, and the list branch never unwraps: the
roundtrip returns [{"[0]": 1}] ≠ [1]. -/
theorem C1_array_scalar_counterexample :
    itemToJson (populateTree none (.arr [.num 1])) = .arr [.obj [("[0]".toList, .num 1)]] ∧
    itemToJson (populateTree none (.arr [.num 1])) ≠ .arr [.num 1] := by
  constructor
  · decide
  · decide

/-- C1 (amended): the projection/reconstruction roundtrip
itemToJson (populateTree none v) = v holds for every value v in which,
at every depth, object keys are nonempty, pairwise distinct, do not
start with "[" and contain no ":", no object entry k maps to a
single-entry object whose sole key is again k, and no array element is
a scalar.  (The original claim — all keys not starting with "[",
arrays of scalar elements included — is refuted by
C1_array_scalar_counterexample; each extra condition here is forced by a
concrete failure of the heuristic: keys with ":" are truncated at the
colon, an entry k ↦ {k: w} is flattened by the unwrap step, empty keys
are falsy in Python and lose their label, and scalar array elements stay
wrapped.) -/
theorem C1_reconstruct_project_roundtrip (v : JValue) (h : good v = true) :
    itemToJson (populateTree none v) = v := by
  rcases hs : isScalar v with hv | hv
  · exact roundtrip_core (sizeOf v) v le_rfl h hs none
  · rw [populateTree_scalar none v hs]
    simp [itemToJson]

/-- C1 witness: the roundtrip theorem applied to the concrete good value
{"a": 1, "b": [{"c": true}], "d": {"e": null}}. -/
theorem C1_reconstruct_project_roundtrip_witness :
    good (.obj [("a".toList, .num 1), ("b".toList, .arr [.obj [("c".toList, .bool true)]]),
      ("d".toList, .obj [("e".toList, .null)])]) = true ∧
    itemToJson (populateTree none (.obj [("a".toList, .num 1),
      ("b".toList, .arr [.obj [("c".toList, .bool true)]]),
      ("d".toList, .obj [("e".toList, .null)])])) =
      .obj [("a".toList, .num 1), ("b".toList, .arr [.obj [("c".toList, .bool true)]]),
        ("d".toList, .obj [("e".toList, .null)])] :=
  ⟨by decide, C1_reconstruct_project_roundtrip _ (by decide)⟩

/-! ### Claim C9 -/

theorem objEntries_eq_map (ts : List TNode) :
    objEntries ts = ts.map (fun ch =>
      (derivedKey ch.label, unwrapSameKey (derivedKey ch.label) (itemToJson ch))) := by
  induction ts with
  | nil => rfl
  | cons t rest ih => simp [objEntries, ih]

theorem itemList_eq_map (ts : List TNode) : itemList ts = ts.map itemToJson := by
  induction ts with
  | nil => rfl
  | cons t rest ih => simp [itemList, ih]

/-- C9 (confirmed): for a non-leaf tree item, item_to_json returns a list
iff every child's label starts with "[" (in which case it maps itself
over the children); otherwise it returns a dict built by inserting, for
each child in order, the key derived as the text before the first ":"
of the child's label when one is present (else the whole label), paired
with the child's (unwrapped) reconstruction. -/
theorem C9_nonleaf_classification (l : Str) (pl : Payload) (c : TNode) (cs : List TNode) :
    (((c :: cs).all (fun ch => startsBracket ch.label) = true) →
      itemToJson (.mk l pl (c :: cs)) = .arr ((c :: cs).map itemToJson)) ∧
    (((c :: cs).all (fun ch => startsBracket ch.label) = false) →
      itemToJson (.mk l pl (c :: cs)) = .obj (buildDict ((c :: cs).map (fun ch =>
        (derivedKey ch.label, unwrapSameKey (derivedKey ch.label) (itemToJson ch)))))) ∧
    ((∃ xs, itemToJson (.mk l pl (c :: cs)) = .arr xs) ↔
      (c :: cs).all (fun ch => startsBracket ch.label) = true) := by
  refine ⟨?_, ?_, ?_, ?_⟩
  · intro hall
    simp [itemToJson, hall, itemList_eq_map]
  · intro hall
    simp [itemToJson, hall, objEntries_eq_map, buildDict]
  · rintro ⟨xs, hxs⟩
    by_contra hne
    have hall : (c :: cs).all (fun ch => startsBracket ch.label) = false :=
      Bool.eq_false_iff.mpr hne
    simp [itemToJson, hall] at hxs
  · intro hall
    exact ⟨itemList (c :: cs), by simp [itemToJson, hall]⟩

/-- C9 witness: the classification theorem applied to the projected tree
of {"a": 1, "b": 2} (labels "a: 1", "b: 2": an object) with the object
branch evaluated. -/
theorem C9_nonleaf_classification_witness :
    ((populateTree none (.obj [("a".toList, .num 1), ("b".toList, .num 2)])).children.all
      (fun ch => startsBracket ch.label) = false) ∧
    itemToJson (.mk [] (.whole .null)
        (populateTree none (.obj [("a".toList, .num 1), ("b".toList, .num 2)])).children) =
      .obj (buildDict
        ((populateTree none (.obj [("a".toList, .num 1), ("b".toList, .num 2)])).children.map
          (fun ch =>
            (derivedKey ch.label, unwrapSameKey (derivedKey ch.label) (itemToJson ch))))) :=
  ⟨by decide,
    (C9_nonleaf_classification [] (.whole .null)
      (populateTree (some ("a".toList)) (.num 1))
      [populateTree (some ("b".toList)) (.num 2)]).2.1 (by decide)⟩

/-! ### Claims C2 and C3 -/

theorem expandEntries_eq_map (kvs : List (Str × JValue)) :
    expandEntries kvs = kvs.map (fun kv =>
      (kv.1, match kv.2 with
             | .str s => loadOrKeep s
             | v => parseNested v)) := by
  induction kvs with
  | nil => rfl
  | cons kv rest ih =>
    obtain ⟨k, v⟩ := kv
    cases v <;> simp [expandEntries, ih]

theorem expandElems_eq_map (xs : List JValue) :
    expandElems xs = xs.map (fun v =>
      match v with
      | .str s => loadOrKeep s
      | v => parseNested v) := by
  induction xs with
  | nil => rfl
  | cons x rest ih => cases x <;> simp [expandElems, ih]

/-- C2 counterexample: parse_nested does not recurse into a replacement.
On {"a": "{\"b\": \"1\"}"} the code replaces the value of "a" by the
parsed dict {"b": "1"} and stops, leaving the inner string "1" (itself
valid JSON) unexpanded, whereas the spec's expansion (specExpand, which
recurses into the replacement) ends at {"a": {"b": 1}}.  The two
results differ, refuting the claim at this input. -/
theorem C2_counterexample :
    parseNested (.obj [("a".toList, .str ("\x7b\"b\": \"1\"\x7d".toList))]) =
      .obj [("a".toList, .obj [("b".toList, .str ("1".toList))])] ∧
    specExpand 8 (.obj [("a".toList, .str ("\x7b\"b\": \"1\"\x7d".toList))]) =
      .obj [("a".toList, .obj [("b".toList, .num 1)])] ∧
    parseNested (.obj [("a".toList, .str ("\x7b\"b\": \"1\"\x7d".toList))]) ≠
      specExpand 8 (.obj [("a".toList, .str ("\x7b\"b\": \"1\"\x7d".toList))]) := by
  refine ⟨by decide, by decide, by decide⟩

/-- C2 (amended): on a dict or list, parse_nested replaces each string
member by json.loads of its contents when that parse succeeds — the
replacement is inserted verbatim, with no further expansion inside it —
and keeps the string unchanged when the parse fails; non-string members
are walked recursively. -/
theorem C2_expansion_one_level :
    (∀ kvs : List (Str × JValue), parseNested (.obj kvs) = .obj (kvs.map (fun kv =>
      (kv.1, match kv.2 with
             | .str s => loadOrKeep s
             | v => parseNested v)))) ∧
    (∀ xs : List JValue, parseNested (.arr xs) = .arr (xs.map (fun v =>
      match v with
      | .str s => loadOrKeep s
      | v => parseNested v))) := by
  constructor
  · intro kvs
    rw [show parseNested (.obj kvs) = .obj (expandEntries kvs) from rfl,
      expandEntries_eq_map]
  · intro xs
    rw [show parseNested (.arr xs) = .arr (expandElems xs) from rfl,
      expandElems_eq_map]

theorem loadOrKeep_of_not_ok (s : Str) (h : (jsonLoads s).isOk = false) :
    loadOrKeep s = .str s := by
  unfold loadOrKeep
  cases hl : jsonLoads s with
  | ok w => rw [hl] at h; simp [Except.isOk, Except.toBool] at h
  | error e => rfl

theorem expandEntries_id (kvs : List (Str × JValue)) (h : noParseableE kvs = true)
    (IH : ∀ k v, (k, v) ∈ kvs → noParseable v = true → parseNested v = v) :
    expandEntries kvs = kvs := by
  induction kvs with
  | nil => rfl
  | cons kv rest ih =>
    obtain ⟨k, v⟩ := kv
    have IH' : ∀ k v, (k, v) ∈ rest → noParseable v = true → parseNested v = v :=
      fun k v hm => IH k v (List.mem_cons_of_mem _ hm)
    cases v with
    | str s =>
      simp only [noParseableE, Bool.and_eq_true, Bool.not_eq_true'] at h
      simp [expandEntries, loadOrKeep_of_not_ok s h.1, ih h.2 IH']
    | null =>
      simp only [noParseableE, Bool.and_eq_true] at h
      simp [expandEntries, parseNested, ih h.2 IH']
    | bool b =>
      simp only [noParseableE, Bool.and_eq_true] at h
      simp [expandEntries, parseNested, ih h.2 IH']
    | num q =>
      simp only [noParseableE, Bool.and_eq_true] at h
      simp [expandEntries, parseNested, ih h.2 IH']
    | arr xs =>
      simp only [noParseableE, Bool.and_eq_true] at h
      have := IH k (.arr xs) (List.mem_cons_self _ _) h.1
      simp [expandEntries, this, ih h.2 IH']
    | obj kvs2 =>
      simp only [noParseableE, Bool.and_eq_true] at h
      have := IH k (.obj kvs2) (List.mem_cons_self _ _) h.1
      simp [expandEntries, this, ih h.2 IH']

theorem expandElems_id (xs : List JValue) (h : noParseableL xs = true)
    (IH : ∀ v, v ∈ xs → noParseable v = true → parseNested v = v) :
    expandElems xs = xs := by
  induction xs with
  | nil => rfl
  | cons x rest ih =>
    have IH' : ∀ v, v ∈ rest → noParseable v = true → parseNested v = v :=
      fun v hm => IH v (List.mem_cons_of_mem _ hm)
    cases x with
    | str s =>
      simp only [noParseableL, Bool.and_eq_true, Bool.not_eq_true'] at h
      simp [expandElems, loadOrKeep_of_not_ok s h.1, ih h.2 IH']
    | null =>
      simp only [noParseableL, Bool.and_eq_true] at h
      simp [expandElems, parseNested, ih h.2 IH']
    | bool b =>
      simp only [noParseableL, Bool.and_eq_true] at h
      simp [expandElems, parseNested, ih h.2 IH']
    | num q =>
      simp only [noParseableL, Bool.and_eq_true] at h
      simp [expandElems, parseNested, ih h.2 IH']
    | arr ys =>
      simp only [noParseableL, Bool.and_eq_true] at h
      have := IH (.arr ys) (List.mem_cons_self _ _) h.1
      simp [expandElems, this, ih h.2 IH']
    | obj kvs2 =>
      simp only [noParseableL, Bool.and_eq_true] at h
      have := IH (.obj kvs2) (List.mem_cons_self _ _) h.1
      simp [expandElems, this, ih h.2 IH']

theorem parseNested_fix_of_noParseable :
    ∀ (n : Nat) (v : JValue), sizeOf v ≤ n → noParseable v = true → parseNested v = v := by
  intro n
  induction n with
  | zero =>
    intro v hv _
    exfalso
    cases v <;> simp_arith at hv
  | succ n ih =>
    intro v hsize h
    cases v with
    | null => rfl
    | bool b => rfl
    | num q => rfl
    | str s => rfl
    | obj kvs =>
      have hE : noParseableE kvs = true := by simpa [noParseable] using h
      have : expandEntries kvs = kvs := by
        refine expandEntries_id kvs hE ?_
        intro k v hm hv
        refine ih v ?_ hv
        have := sizeOf_mem_obj kvs k v hm
        omega
      simp [parseNested, this]
    | arr xs =>
      have hL : noParseableL xs = true := by simpa [noParseable] using h
      have : expandElems xs = xs := by
        refine expandElems_id xs hL ?_
        intro v hm hv
        refine ih v ?_ hv
        have := sizeOf_mem_arr xs v hm
        omega
      simp [parseNested, this]

/-- C3 counterexample: expand is not idempotent.  On
{"a": "{\"b\": \"2\"}"} one pass yields {"a": {"b": "2"}} (the
replacement is not walked), and the second pass then expands the inner
string to {"a": {"b": 2}} — so expand(expand(v)) ≠ expand(v). -/
theorem C3_counterexample :
    parseNested (parseNested (.obj [("a".toList, .str ("\x7b\"b\": \"2\"\x7d".toList))])) ≠
      parseNested (.obj [("a".toList, .str ("\x7b\"b\": \"2\"\x7d".toList))]) := by
  decide

/-- C3 (amended): one parse_nested pass is idempotent exactly on values
whose expansion contains no further parseable string member: whenever
no string that sits directly in a dict or list of expand(v) re-parses
as JSON, expand(expand(v)) = expand(v).  (The unconditional claim is
refuted by C3_counterexample: a replacement can itself contain
parseable strings, which only the next pass picks up.) -/
theorem C3_expand_idempotent_when_settled (v : JValue)
    (h : noParseable (parseNested v) = true) :
    parseNested (parseNested v) = parseNested v :=
  parseNested_fix_of_noParseable (sizeOf (parseNested v)) (parseNested v) le_rfl h

/-- C3 witness: the amended idempotence applied to {"a": "{\"b\": 2}"},
whose single pass ends at the settled value {"a": {"b": 2}}. -/
theorem C3_expand_idempotent_when_settled_witness :
    noParseable (parseNested (.obj [("a".toList, .str ("\x7b\"b\": 2\x7d".toList))])) = true ∧
    parseNested (parseNested (.obj [("a".toList, .str ("\x7b\"b\": 2\x7d".toList))])) =
      parseNested (.obj [("a".toList, .str ("\x7b\"b\": 2\x7d".toList))]) :=
  ⟨by decide, C3_expand_idempotent_when_settled _ (by decide)⟩

/-! ### Helper lemmas: the search loop -/

theorem ciMatch_len (ps ts : Str) (h : ciMatch ps ts = true) : ps.length ≤ ts.length := by
  induction ps generalizing ts with
  | nil => simp
  | cons a ps ih =>
    cases ts with
    | nil => simp [ciMatch] at h
    | cons b ts =>
      simp only [ciMatch, Bool.and_eq_true] at h
      simpa [List.length_cons] using ih ts h.2

theorem scanFrom_some (pat : Str) :
    ∀ (t : Str) (pos j : Nat), scanFrom pat t pos = some j →
      pos ≤ j ∧ ciMatch pat (t.drop (j - pos)) = true := by
  intro t
  induction t with
  | nil => intro pos j h; simp [scanFrom] at h
  | cons c rest ih =>
    intro pos j h
    rw [scanFrom] at h
    by_cases hc : ciMatch pat (c :: rest) = true
    · rw [if_pos hc] at h
      obtain rfl := Option.some.inj h
      simpa using hc
    · rw [if_neg hc] at h
      obtain ⟨h1, h2⟩ := ih (pos + 1) j h
      refine ⟨by omega, ?_⟩
      have : j - pos = (j - (pos + 1)) + 1 := by omega
      rw [this, List.drop_succ_cons]
      exact h2

theorem docFind_some (doc pat : Str) (start j : Nat) (h : docFind doc pat start = some j) :
    start ≤ j ∧ ciMatch pat (doc.drop j) = true := by
  rw [docFind] at h
  by_cases hg : (pat = [] || pat.contains '\n') = true
  · rw [if_pos hg] at h; cases h
  · rw [if_neg hg] at h
    obtain ⟨h1, h2⟩ := scanFrom_some pat (doc.drop start) start j h
    refine ⟨h1, ?_⟩
    rw [List.drop_drop] at h2
    have hj : start + (j - start) = j := by omega
    rwa [hj] at h2

theorem docFind_pat_ne (doc pat : Str) (start j : Nat) (h : docFind doc pat start = some j) :
    pat ≠ [] := by
  intro hp
  rw [docFind, if_pos (by simp [hp])] at h
  cases h

theorem searchLoop_mem (doc pat : Str) :
    ∀ (fuel start j : Nat), j ∈ searchLoop doc pat fuel start →
      start ≤ j ∧ ciMatch pat (doc.drop j) = true := by
  intro fuel
  induction fuel with
  | zero => intro start j h; simp [searchLoop] at h
  | succ fuel ih =>
    intro start j h
    rw [searchLoop] at h
    cases hf : docFind doc pat start with
    | none => rw [hf] at h; simp at h
    | some j0 =>
      rw [hf] at h
      obtain ⟨hle, hci⟩ := docFind_some doc pat start j0 hf
      rcases List.mem_cons.mp h with rfl | hmem
      · exact ⟨hle, hci⟩
      · obtain ⟨h1, h2⟩ := ih (j0 + pat.length) j hmem
        exact ⟨by omega, h2⟩

theorem doSearch_matchList (p : SPanel) (text : Str) :
    (doSearch p text).matchList = if text = [] then [] else findAllMatches p.doc text := by
  by_cases ht : text = []
  · simp [doSearch, highlightSearch, ht]
  · simp only [doSearch, highlightSearch, ht, if_neg, ite_false, updateLabel]
    by_cases hm : findAllMatches p.doc text = []
    · simp [hm]
    · simp [hm, goto]

/-! ### Claim C4 -/

/-- C4 counterexample: matching is not case-sensitive.  Searching the
buffer "AB" for the pattern "ab" records the occurrence at offset 0,
although it differs from the pattern in letter case (QTextDocument.find
with default flags folds case). -/
theorem C4_counterexample :
    (doSearch ⟨"AB".toList, [], [], 0, [], []⟩ ("ab".toList)).matchList = [0] ∧
    "AB".toList ≠ "ab".toList := by
  refine ⟨by decide, by decide⟩

/-- C4 (amended): matching is case-insensitive — every offset recorded by
do_search carries an occurrence of the pattern up to Unicode simple case
folding (and in particular the match fits inside the buffer). -/
theorem C4_case_insensitive_matching (p : SPanel) (text : Str) (j : Nat)
    (hm : j ∈ (doSearch p text).matchList) :
    ciMatch text (p.doc.drop j) = true ∧ j + text.length ≤ p.doc.length := by
  rw [doSearch_matchList] at hm
  by_cases ht : text = []
  · rw [if_pos ht] at hm; cases hm
  · rw [if_neg ht] at hm
    obtain ⟨-, hci⟩ := searchLoop_mem p.doc text (p.doc.length + 1) 0 j hm
    refine ⟨hci, ?_⟩
    have := ciMatch_len text (p.doc.drop j) hci
    have hdl : (p.doc.drop j).length = p.doc.length - j := List.length_drop j p.doc
    by_cases hj : j ≤ p.doc.length
    · omega
    · rw [List.drop_eq_nil_of_le (by omega)] at hci
      cases text with
      | nil => exact absurd rfl ht
      | cons a ps => simp [ciMatch] at hci

/-- C4 witness: the amended theorem applied to the "AB" / "ab" search,
whose single recorded offset 0 is a case-folded occurrence. -/
theorem C4_case_insensitive_matching_witness :
    (0 ∈ (doSearch ⟨"AB".toList, [], [], 0, [], []⟩ ("ab".toList)).matchList) ∧
    (ciMatch ("ab".toList) (("AB".toList).drop 0) = true ∧
      0 + ("ab".toList).length ≤ ("AB".toList).length) :=
  ⟨by decide, C4_case_insensitive_matching ⟨"AB".toList, [], [], 0, [], []⟩ ("ab".toList) 0
    (by decide)⟩

/-! ### Claim C5 -/

theorem matchHere_lowerEq_eq_ciMatch (ps ts : Str) :
    greedyGo.matchHere lowerEq ps ts = ciMatch ps ts := by
  induction ps generalizing ts with
  | nil => cases ts <;> rfl
  | cons a ps ih =>
    cases ts with
    | nil => rfl
    | cons b ts => simp [greedyGo.matchHere, ciMatch, ih]

theorem greedyGo_nil (pat : Str) (g pos : Nat) :
    greedyGo lowerEq pat g [] pos = [] := by
  cases g <;> rfl

theorem searchLoop_nil (doc pat : Str) (f pos : Nat) (hdrop : doc.drop pos = []) :
    searchLoop doc pat f pos = [] := by
  cases f with
  | zero => rfl
  | succ f =>
    rw [searchLoop]
    have hfind : docFind doc pat pos = none := by
      rw [docFind]
      by_cases hg : (pat = [] || pat.contains '\n') = true
      · rw [if_pos hg]
      · rw [if_neg hg, hdrop]; rfl
    rw [hfind]

theorem docFind_guard_false (pat : Str) (hp : pat ≠ [])
    (hn : pat.contains '\n' = false) :
    (decide (pat = []) || pat.contains '\n') = false := by
  rw [Bool.or_eq_false_iff]
  exact ⟨decide_eq_false hp, hn⟩

theorem docFind_of_ciMatch (doc pat : Str) (pos : Nat) (hp : pat ≠ [])
    (hn : pat.contains '\n' = false) (hc : ciMatch pat (doc.drop pos) = true) :
    docFind doc pat pos = some pos := by
  have hnotmem : '\n' ∉ pat := by simpa using hn
  rw [docFind, if_neg (by simp [hp, hnotmem])]
  cases hdrop : doc.drop pos with
  | nil =>
    rw [hdrop] at hc
    cases pat with
    | nil => exact absurd rfl hp
    | cons a ps => simp [ciMatch] at hc
  | cons c rest =>
    rw [hdrop] at hc
    rw [scanFrom, if_pos hc]

theorem docFind_step (doc pat : Str) (pos : Nat) (c : Char) (rest : Str)
    (hdrop : doc.drop pos = c :: rest) (hc : ciMatch pat (doc.drop pos) = false) :
    docFind doc pat pos = docFind doc pat (pos + 1) := by
  have hrest : doc.drop (pos + 1) = rest := by
    rw [← List.tail_drop, hdrop]
    rfl
  rw [docFind, docFind, hrest]
  by_cases hg : (pat = [] || pat.contains '\n') = true
  · rw [if_pos hg, if_pos hg]
  · rw [if_neg hg, if_neg hg, hdrop]
    rw [hdrop] at hc
    rw [scanFrom, if_neg (by simp [hc])]

theorem greedy_eq_searchLoop (doc pat : Str) (hp : pat ≠ [])
    (hn : pat.contains '\n' = false) :
    ∀ (m : Nat) (t : Str) (pos g f : Nat), t = doc.drop pos → t.length ≤ m →
      t.length < g → t.length < f →
      greedyGo lowerEq pat g t pos = searchLoop doc pat f pos := by
  have hL : 1 ≤ pat.length := List.length_pos.mpr hp
  intro m
  induction m with
  | zero =>
    intro t pos g f ht hm _ _
    have ht0 : t = [] := List.eq_nil_of_length_eq_zero (Nat.le_zero.mp hm)
    subst ht0
    rw [greedyGo_nil, searchLoop_nil doc pat f pos ht.symm]
  | succ m ihm =>
    intro t pos g f ht hm hg hf
    cases t with
    | nil =>
      rw [greedyGo_nil, searchLoop_nil doc pat f pos ht.symm]
    | cons c rest =>
      obtain ⟨g', rfl⟩ : ∃ g2, g = g2 + 1 := ⟨g - 1, by omega⟩
      obtain ⟨f', rfl⟩ : ∃ f2, f = f2 + 1 := ⟨f - 1, by omega⟩
      have hrest : rest = doc.drop (pos + 1) := by
        rw [← List.tail_drop, ← ht]
        rfl
      rw [greedyGo, matchHere_lowerEq_eq_ciMatch, ht]
      simp only [List.length_cons] at hm hg hf
      by_cases hc : ciMatch pat (doc.drop pos) = true
      · have hlen1 : (doc.drop pos).length = rest.length + 1 := by
          rw [← ht]
          rfl
        have hlen2 : ((doc.drop pos).drop pat.length).length =
            rest.length + 1 - pat.length := by
          rw [List.length_drop, hlen1]
        have ht2 : (doc.drop pos).drop pat.length = doc.drop (pos + pat.length) := by
          rw [List.drop_drop]
        have hrec := ihm ((doc.drop pos).drop pat.length) (pos + pat.length) g' f'
          ht2 (by omega) (by omega) (by omega)
        rw [if_pos hc, searchLoop, docFind_of_ciMatch doc pat pos hp hn hc]
        exact congrArg (pos :: ·) hrec
      · have hcf : ciMatch pat (doc.drop pos) = false := Bool.eq_false_iff.mpr hc
        rw [if_neg hc]
        have hstep : searchLoop doc pat (f' + 1) pos = searchLoop doc pat (f' + 1) (pos + 1) := by
          rw [searchLoop, searchLoop, docFind_step doc pat pos c rest ht.symm hcf]
        rw [hstep]
        exact ihm rest (pos + 1) g' (f' + 1) hrest (by omega) (by omega) (by omega)

theorem findAllMatches_eq_greedy (doc pat : Str) (hn : pat.contains '\n' = false) :
    findAllMatches doc pat = greedyMatches lowerEq doc pat := by
  by_cases hp : pat = []
  · subst hp
    simp [findAllMatches, greedyMatches, searchLoop, docFind]
  · rw [greedyMatches, if_neg hp, findAllMatches]
    exact (greedy_eq_searchLoop doc pat hp hn doc.length doc 0 (doc.length + 1)
      (doc.length + 1) (List.drop_zero doc).symm le_rfl (by omega) (by omega)).symm

theorem searchLoop_sorted (doc pat : Str) :
    ∀ (fuel start : Nat), List.Sorted (· < ·) (searchLoop doc pat fuel start) := by
  intro fuel
  induction fuel with
  | zero => intro start; simp [searchLoop]
  | succ fuel ih =>
    intro start
    rw [searchLoop]
    cases hf : docFind doc pat start with
    | none => simp
    | some j =>
      rw [List.sorted_cons]
      refine ⟨?_, ih _⟩
      intro b hb
      obtain ⟨hge, -⟩ := searchLoop_mem doc pat fuel (j + pat.length) b hb
      have hp : pat ≠ [] := docFind_pat_ne doc pat start j hf
      have h1 : 1 ≤ pat.length := List.length_pos.mpr hp
      omega

/-- C5 counterexample: the general clause "k non-overlapping left-to-right
occurrences of the pattern imply a match list of length k" fails because
matching is case-insensitive.  The buffer "A" contains zero literal
occurrences of "a" (greedyMatches with plain character equality, the
claim's occurrence notion), yet do_search records one match. -/
theorem C5_counterexample :
    (doSearch ⟨"A".toList, [], [], 0, [], []⟩ ("a".toList)).matchList.length = 1 ∧
    (greedyMatches (fun a b => a == b) ("A".toList) ("a".toList)).length = 0 :=
  ⟨by decide, by decide⟩

/-- C5 (amended): for a pattern without a line break, the recorded match
list is exactly the non-overlapping left-to-right greedy scan of
case-insensitive occurrences (each search resumes at the end of the
previous match), sorted strictly ascending by offset.  In particular for
text "ababab" and pattern "aba" it is [(0,3)] only. -/
theorem C5_matches_are_greedy_nonoverlapping (p : SPanel) (text : Str)
    (hn : text.contains '\n' = false) :
    (doSearch p text).matchList = greedyMatches lowerEq p.doc text ∧
    List.Sorted (· < ·) ((doSearch p text).matchList) := by
  rw [doSearch_matchList]
  by_cases ht : text = []
  · subst ht
    simp [greedyMatches]
  · rw [if_neg ht]
    exact ⟨findAllMatches_eq_greedy p.doc text hn, searchLoop_sorted p.doc text _ _⟩

/-- C5 witness: the amended theorem applied to the "ababab" / "aba"
scenario; the single recorded match starts at 0 (the overlapping
occurrence at 2 is skipped). -/
theorem C5_matches_are_greedy_nonoverlapping_witness :
    (("aba".toList).contains '\n' = false) ∧
    (doSearch ⟨"ababab".toList, [], [], 0, [], []⟩ ("aba".toList)).matchList =
      greedyMatches lowerEq ("ababab".toList) ("aba".toList) ∧
    (doSearch ⟨"ababab".toList, [], [], 0, [], []⟩ ("aba".toList)).matchList = [0] :=
  ⟨by decide,
   (C5_matches_are_greedy_nonoverlapping ⟨"ababab".toList, [], [], 0, [], []⟩ ("aba".toList)
     (by decide)).1,
   by decide⟩

/-! ### Claim C6 -/

theorem goto_matchList (p : SPanel) (idx : Nat) : (goto p idx).matchList = p.matchList := by
  by_cases h : p.matchList = [] <;> simp [goto, h]

theorem goto_index (p : SPanel) (idx : Nat) (h : p.matchList ≠ []) :
    (goto p idx).index = idx := by
  simp [goto, h]

theorem nextMatch_matchList (p : SPanel) : (nextMatch p).matchList = p.matchList := by
  by_cases h : p.matchList = [] <;> simp [nextMatch, h, goto_matchList]

theorem nextMatch_index (p : SPanel) (h : p.matchList ≠ []) :
    (nextMatch p).index = (p.index + 1) % p.matchList.length := by
  simp [nextMatch, h, goto_index]

theorem pyPrev_eq (i n : Nat) (hn : 0 < n) :
    ((((i : Int) - 1) % (n : Int)).toNat) = (i + n - 1) % n := by
  have h1 : 1 ≤ i + n := by omega
  have key : (i : Int) - 1 + n = ((i + n - 1 : Nat) : Int) := by
    push_cast [Nat.cast_sub h1]
    ring
  have h2 : ((i : Int) - 1) % (n : Int) = ((i + n - 1 : Nat) : Int) % (n : Int) := by
    rw [← key]
    simp
  rw [h2, ← Int.natCast_mod, Int.toNat_natCast]

theorem prevMatch_index (p : SPanel) (h : p.matchList ≠ []) :
    (prevMatch p).index = (p.index + p.matchList.length - 1) % p.matchList.length := by
  have hn : 0 < p.matchList.length := List.length_pos.mpr h
  simp only [prevMatch, if_neg h, goto_index _ _ h]
  exact pyPrev_eq p.index p.matchList.length hn

theorem prevMatch_matchList (p : SPanel) : (prevMatch p).matchList = p.matchList := by
  by_cases h : p.matchList = [] <;> simp [prevMatch, h, goto_matchList]

theorem nextMatch_iterate (p : SPanel) (h : p.matchList ≠ []) (hi : p.index < p.matchList.length) :
    ∀ k, (nextMatch^[k] p).index = (p.index + k) % p.matchList.length ∧
      (nextMatch^[k] p).matchList = p.matchList := by
  intro k
  induction k with
  | zero =>
    simp [Nat.mod_eq_of_lt hi]
  | succ k ihk =>
    obtain ⟨hidx, hml⟩ := ihk
    have hne : (nextMatch^[k] p).matchList ≠ [] := by rw [hml]; exact h
    constructor
    · rw [Function.iterate_succ_apply', nextMatch_index _ hne, hml, hidx, Nat.mod_add_mod,
        Nat.add_assoc]
    · rw [Function.iterate_succ_apply', nextMatch_matchList _, hml]


/-- C6 (confirmed): next_match and prev_match are no-ops on an empty
match list; otherwise next_match sets the index to
(index + 1) mod len(matches) and prev_match to (index - 1 + len) mod len
(Python's remainder is nonnegative); hence from the first match,
len(matches) applications of next_match wrap back to the first match and
one prev_match lands on the last. -/
theorem C6_navigation (p : SPanel) :
    (p.matchList = [] → nextMatch p = p ∧ prevMatch p = p) ∧
    (p.matchList ≠ [] →
      (nextMatch p).index = (p.index + 1) % p.matchList.length ∧
      (prevMatch p).index = (p.index + p.matchList.length - 1) % p.matchList.length) ∧
    (p.matchList ≠ [] → p.index = 0 →
      (nextMatch^[p.matchList.length] p).index = 0 ∧
      (prevMatch p).index = p.matchList.length - 1) := by
  refine ⟨?_, ?_, ?_⟩
  · intro h
    exact ⟨by simp [nextMatch, h], by simp [prevMatch, h]⟩
  · intro h
    exact ⟨nextMatch_index p h, prevMatch_index p h⟩
  · intro h hi
    have hn : 0 < p.matchList.length := List.length_pos.mpr h
    constructor
    · have := (nextMatch_iterate p h (by omega) p.matchList.length).1
      rw [this, hi, Nat.zero_add, Nat.mod_self]
    · rw [prevMatch_index p h, hi, Nat.zero_add,
        Nat.mod_eq_of_lt (by omega)]

/-- C6 witness: the navigation theorem applied to the session built by
searching "aa" for "a" (two matches, index 0): next_match moves to
(0+1) % 2 and two applications return to 0, prev_match lands on 1. -/
theorem C6_navigation_witness :
    ((doSearch ⟨"aa".toList, [], [], 0, [], []⟩ ("a".toList)).matchList ≠ []) ∧
    (nextMatch (doSearch ⟨"aa".toList, [], [], 0, [], []⟩ ("a".toList))).index =
      ((doSearch ⟨"aa".toList, [], [], 0, [], []⟩ ("a".toList)).index + 1) %
        (doSearch ⟨"aa".toList, [], [], 0, [], []⟩ ("a".toList)).matchList.length ∧
    (prevMatch (doSearch ⟨"aa".toList, [], [], 0, [], []⟩ ("a".toList))).index =
      (doSearch ⟨"aa".toList, [], [], 0, [], []⟩ ("a".toList)).matchList.length - 1 :=
  ⟨by decide,
   ((C6_navigation (doSearch ⟨"aa".toList, [], [], 0, [], []⟩ ("a".toList))).2.1
     (by decide)).1,
   ((C6_navigation (doSearch ⟨"aa".toList, [], [], 0, [], []⟩ ("a".toList))).2.2
     (by decide) (by decide)).2⟩

/-! ### Claim C7 -/

/-- C7 (confirmed): for a session whose match list was computed by
do_search over the same document and pattern, goto rebuilds the editor's
extra-selection list in exactly this order: first the zero-length
full-width current-line anchor at the current match's start offset, then
one plain (green) range per match in match order, and last the single
red current-match range (start, pattern length) — so, under the
painter's rendering order, the current-match layer overrides the
all-match layer where they overlap. -/
theorem C7_goto_highlight_layers (p : SPanel) (idx : Nat)
    (hs : p.matchList = findAllMatches p.doc p.pattern)
    (h : p.matchList ≠ []) :
    (goto p idx).extras =
      mkLineSel (p.matchList.getD idx 0) ::
        (p.matchList.map (fun j => mkGreenSel j p.pattern.length) ++
          [mkCurrentSel (p.matchList.getD idx 0) p.pattern.length]) := by
  simp only [goto, if_neg h]
  rw [← hs]
  rfl

/-- C7 witness: the layering theorem applied to goto 1 on the session
from searching "aa" for "a": the anchor sits at offset 1, the two green
ranges cover both matches in order, and the red range for match 1 comes
last. -/
theorem C7_goto_highlight_layers_witness :
    ((doSearch ⟨"aa".toList, [], [], 0, [], []⟩ ("a".toList)).matchList =
      findAllMatches (doSearch ⟨"aa".toList, [], [], 0, [], []⟩ ("a".toList)).doc
        (doSearch ⟨"aa".toList, [], [], 0, [], []⟩ ("a".toList)).pattern) ∧
    ((doSearch ⟨"aa".toList, [], [], 0, [], []⟩ ("a".toList)).matchList ≠ []) ∧
    (goto (doSearch ⟨"aa".toList, [], [], 0, [], []⟩ ("a".toList)) 1).extras =
      [mkLineSel 1, mkGreenSel 0 1, mkGreenSel 1 1, mkCurrentSel 1 1] :=
  ⟨by decide, by decide,
   (C7_goto_highlight_layers (doSearch ⟨"aa".toList, [], [], 0, [], []⟩ ("a".toList)) 1
     (by decide) (by decide)).trans (by decide)⟩

/-! ### Claims C8 and C10 -/

/-- C8 (confirmed): on malformed (nonempty, stripped) input text, the
live re-parse triggered by a buffer edit shows no dialog and clears both
the tree view and the result view, while the explicit format and
compress actions leave the state untouched and pop a dialog carrying the
parse error's message, line and column.  (Empty input takes the early
clear-and-return path in process_json and compress_json before any
parsing, so the hypotheses require a nonempty stripped buffer.) -/
theorem C8_parse_error_modes (st : WState) (e : JsonError)
    (hne : pyStrip st.inputText ≠ [])
    (herr : jsonLoads (pyStrip st.inputText) = .error e) :
    autoFormatInput st = ({ st with tree := none, output := [] }, none) ∧
    formatJson st = (st, some ⟨"格式化失败".toList, errBody e⟩) ∧
    compressJson st = (st, some ⟨"压缩失败".toList, errBody e⟩) := by
  refine ⟨?_, ?_, ?_⟩
  · simp [autoFormatInput, processJson, hne, herr]
  · simp [formatJson, processJson, hne, herr]
  · simp [compressJson, hne, herr]

/-- C8 witness: the error-mode theorem applied to the buffer "[1," — the
parse fails with "Expecting value" at line 1, column 4; the live pass
silently clears, the explicit actions only pop the dialog. -/
theorem C8_parse_error_modes_witness :
    (pyStrip ("[1,".toList) ≠ []) ∧
    jsonLoads (pyStrip ("[1,".toList)) = .error ⟨"Expecting value", 1, 4⟩ ∧
    autoFormatInput ⟨"[1,".toList, some (populateTree none .null), "x".toList⟩ =
      (⟨"[1,".toList, none, []⟩, none) ∧
    formatJson ⟨"[1,".toList, some (populateTree none .null), "x".toList⟩ =
      (⟨"[1,".toList, some (populateTree none .null), "x".toList⟩,
        some ⟨"格式化失败".toList, errBody ⟨"Expecting value", 1, 4⟩⟩) :=
  ⟨by decide, by decide,
   (C8_parse_error_modes ⟨"[1,".toList, some (populateTree none .null), "x".toList⟩
     ⟨"Expecting value", 1, 4⟩ (by decide) (by decide)).1,
   (C8_parse_error_modes ⟨"[1,".toList, some (populateTree none .null), "x".toList⟩
     ⟨"Expecting value", 1, 4⟩ (by decide) (by decide)).2.1⟩

/-- C10 (confirmed): when the explicit format or compress action fails
with a parse error, the window state — in particular the tree view and
the result view — is left exactly as it was; only the dialog is shown. -/
theorem C10_explicit_failure_keeps_views (st : WState) (e : JsonError)
    (hne : pyStrip st.inputText ≠ [])
    (herr : jsonLoads (pyStrip st.inputText) = .error e) :
    (formatJson st).1.tree = st.tree ∧ (formatJson st).1.output = st.output ∧
    (formatJson st).2 = some ⟨"格式化失败".toList, errBody e⟩ ∧
    (compressJson st).1.tree = st.tree ∧ (compressJson st).1.output = st.output ∧
    (compressJson st).2 = some ⟨"压缩失败".toList, errBody e⟩ := by
  have hf : formatJson st = (st, some ⟨"格式化失败".toList, errBody e⟩) := by
    simp [formatJson, processJson, hne, herr]
  have hc : compressJson st = (st, some ⟨"压缩失败".toList, errBody e⟩) := by
    simp [compressJson, hne, herr]
  rw [hf, hc]
  exact ⟨rfl, rfl, rfl, rfl, rfl, rfl⟩

/-- C10 witness: the preservation theorem applied to the malformed buffer
"{\"a\":}" with a previously populated tree and result view. -/
theorem C10_explicit_failure_keeps_views_witness :
    (pyStrip ("\x7b\"a\":\x7d".toList) ≠ []) ∧
    ((formatJson ⟨"\x7b\"a\":\x7d".toList, some (populateTree none (.num 7)),
        "old".toList⟩).1.tree = some (populateTree none (.num 7))) ∧
    ((compressJson ⟨"\x7b\"a\":\x7d".toList, some (populateTree none (.num 7)),
        "old".toList⟩).1.output = "old".toList) :=
  ⟨by decide,
   (C10_explicit_failure_keeps_views ⟨"\x7b\"a\":\x7d".toList,
       some (populateTree none (.num 7)), "old".toList⟩
     ⟨"Expecting value", 1, 6⟩ (by decide) (by decide)).1,
   (C10_explicit_failure_keeps_views ⟨"\x7b\"a\":\x7d".toList,
       some (populateTree none (.num 7)), "old".toList⟩
     ⟨"Expecting value", 1, 6⟩ (by decide) (by decide)).2.2.2.2.1⟩
